import Mathlib

/-!
Verification of the `caesar-cipher` crate: a Caesar substitution cipher
parameterized over a configurable alphabet.

Shallow embedding conventions:
* Rust `&'static [char]` alphabets and `String` messages become `List Char`.
* The generic type parameter `A : Alphabet` becomes an explicit
  `A : List Char` argument (the value of `A::letters()`).
* Panicking operations (`unwrap`, slice indexing, `rotate_left` with an
  out-of-range argument) are modelled in `Option`, with `none` standing
  for a panic.
* `CaesarEngine<A>` stores only its `shifted_alphabet`; we represent an
  engine by that list, produced by `CaesarEngine.new`.
-/

/-- Rust `Iterator::position`: index of the first element satisfying `p`. -/
def position {α : Type} (p : α → Bool) : List α → Option Nat
  | [] => none
  | c :: cs => if p c then some 0 else (position p cs).map (· + 1)

/-- Rust `slice::rotate_left`: `l` becomes `l[mid..] ++ l[..mid]`.
Panics (`none`) when `mid` exceeds the length of the slice. -/
def rotate_left (l : List Char) (mid : Nat) : Option (List Char) :=
  if mid ≤ l.length then some (l.drop mid ++ l.take mid) else none

/-- Embedding of `CaesarEngine::<A>::new(Shift(shift))` from src/lib.rs: copies
`A::letters()` and rotates it left by `shift`.  The resulting engine is
represented by its `shifted_alphabet` field. -/
def CaesarEngine.new (A : List Char) (shift : Nat) : Option (List Char) :=
  rotate_left A shift

/-- One iteration of the `encrypt` loop: look the letter up in the
original alphabet (`position ... .unwrap()`), then index the shifted
alphabet at that position. -/
def encryptChar (A sh : List Char) (letter : Char) : Option Char := do
  let letter_index ← position (fun l => l == letter) A
  sh.get? letter_index

/-- Embedding of `CaesarEngine::encrypt` from src/lib.rs: substitute every character
of the clear message through `encryptChar`, in order. -/
def CaesarEngine.encrypt (A sh : List Char) : List Char → Option (List Char)
  | [] => some []
  | c :: cs => do
    let e ← encryptChar A sh c
    let rest ← CaesarEngine.encrypt A sh cs
    pure (e :: rest)

/-- One iteration of the `decrypt` loop: look the letter up in the
shifted alphabet, then index the original alphabet at that position. -/
def decryptChar (A sh : List Char) (letter : Char) : Option Char := do
  let letter_index ← position (fun l => letter == l) sh
  A.get? letter_index

/-- Embedding of `CaesarEngine::decrypt` from src/lib.rs: substitute every character
of the cipher message through `decryptChar`, in order. -/
def CaesarEngine.decrypt (A sh : List Char) : List Char → Option (List Char)
  | [] => some []
  | c :: cs => do
    let d ← decryptChar A sh c
    let rest ← CaesarEngine.decrypt A sh cs
    pure (d :: rest)

/-- Embedding of `ClearText::<A>::try_new` from src/lib.rs: scan for the first
character not contained in the alphabet; on a hit return
`CharacterNotInAlphabet` (modelled as `Except.error`) carrying
`message.chars().nth(p).unwrap()` (the `unwrap` is the `Option` layer);
otherwise wrap the unmodified message. -/
def ClearText.try_new (A message : List Char) : Option (Except Char (List Char)) :=
  match position (fun c => !(A.contains c)) message with
  | some p => (message.get? p).map Except.error
  | none => some (Except.ok message)

/-- Embedding of `AsciiLowerCaseAlphabet::letters()` from src/alphabets.rs. -/
def AsciiLowerCaseAlphabet.letters : List Char :=
  ['a', 'b', 'c', 'd', 'e', 'f', 'g', 'h', 'i', 'j', 'k', 'l', 'm', 'n', 'o', 'p', 'q',
   'r', 's', 't', 'u', 'v', 'w', 'x', 'y', 'z']

/-- Embedding of `IncompleteAscii::letters()` from src/alphabets.rs. -/
def IncompleteAscii.letters : List Char :=
  ['a', 'b', 'c', 'd', 'e', 'f', 'g', 'h', 'i', 'j', 'k', 'l', 'm', 'n', 'o', 'p', 'q',
   'r', 's', 't', 'u', 'v', 'w', 'x', 'y', 'z', 'A', 'B', 'C', 'D', 'E', 'F', 'G', 'H',
   'I', 'J', 'K', 'L', 'M', 'N', 'O', 'P', 'Q', 'R', 'S', 'T', 'U', 'V', 'W', 'X', 'Y',
   'Z', ',', ' ', '?', '!', '\'', '(', ')', '.']

/-! ### Lemmas about `position` -/

theorem position_eq_none {α : Type} (p : α → Bool) (l : List α) :
    position p l = none ↔ ∀ c ∈ l, p c = false := by
  induction l with
  | nil => simp [position]
  | cons c cs ih =>
    by_cases h : p c = true
    · simp [position, h]
    · simp only [Bool.not_eq_true] at h
      simp [position, h, ih]

theorem position_lt {α : Type} {p : α → Bool} {l : List α} {i : Nat}
    (h : position p l = some i) : i < l.length := by
  induction l generalizing i with
  | nil => simp [position] at h
  | cons c cs ih =>
    by_cases hc : p c = true
    · simp [position, hc] at h
      simp only [List.length_cons]
      omega
    · simp only [Bool.not_eq_true] at hc
      simp [position, hc] at h
      obtain ⟨j, hj, rfl⟩ := h
      have := ih hj
      simp only [List.length_cons]
      omega

theorem position_get? {α : Type} {p : α → Bool} {l : List α} {i : Nat}
    (h : position p l = some i) : ∃ x, l.get? i = some x ∧ p x = true := by
  induction l generalizing i with
  | nil => simp [position] at h
  | cons c cs ih =>
    by_cases hc : p c = true
    · simp [position, hc] at h
      subst h
      exact ⟨c, rfl, hc⟩
    · simp only [Bool.not_eq_true] at hc
      simp [position, hc] at h
      obtain ⟨j, hj, rfl⟩ := h
      obtain ⟨x, hx, hpx⟩ := ih hj
      exact ⟨x, by simpa using hx, hpx⟩

theorem position_min {α : Type} {p : α → Bool} {l : List α} {i : Nat}
    (h : position p l = some i) {j : Nat} (hj : j < i) {y : α}
    (hy : l.get? j = some y) : p y = false := by
  induction l generalizing i j with
  | nil => simp [position] at h
  | cons c cs ih =>
    by_cases hc : p c = true
    · simp [position, hc] at h
      exact absurd hj (by omega)
    · simp only [Bool.not_eq_true] at hc
      simp [position, hc] at h
      obtain ⟨i0, hi0, rfl⟩ := h
      match j with
      | 0 =>
        simp at hy
        subst hy
        exact hc
      | j0 + 1 =>
        refine ih hi0 ?_ (by simpa using hy)
        omega

theorem position_isSome_of_mem {α : Type} {p : α → Bool} {l : List α} {c : α}
    (hc : c ∈ l) (hp : p c = true) : ∃ i, position p l = some i := by
  cases h : position p l with
  | some i => exact ⟨i, rfl⟩
  | none =>
    rw [position_eq_none] at h
    exact absurd (h c hc) (by simp [hp])

theorem position_eq_some_of {α : Type} {p : α → Bool} {l : List α} {i : Nat} {c : α}
    (hc : l.get? i = some c) (hp : p c = true)
    (hmin : ∀ j y, j < i → l.get? j = some y → p y = false) :
    position p l = some i := by
  induction l generalizing i with
  | nil => simp at hc
  | cons a as ih =>
    match i with
    | 0 =>
      simp at hc
      subst hc
      simp [position, hp]
    | i0 + 1 =>
      have ha : p a = false := hmin 0 a (by omega) rfl
      have : position p as = some i0 := by
        refine ih (by simpa using hc) ?_
        intro j y hj hy
        exact hmin (j + 1) y (by omega) (by simpa using hy)
      simp [position, ha, this]

/-- In a list without duplicates, `position` with an equality predicate
recovers the index of any retrieved element. -/
theorem position_of_get?_nodup {α : Type} [BEq α] [LawfulBEq α] {l : List α}
    (hl : l.Nodup) {i : Nat} {x : α} (h : l.get? i = some x) :
    position (fun y => y == x) l = some i := by
  refine position_eq_some_of h (by simp) ?_
  intro j y hj hy
  have hne : y ≠ x := by
    intro hxy
    subst hxy
    obtain ⟨hij, hgi⟩ := List.get?_eq_some.mp h
    obtain ⟨hji, hgj⟩ := List.get?_eq_some.mp hy
    have hfin : (⟨i, hij⟩ : Fin l.length) = ⟨j, hji⟩ :=
      (List.Nodup.get_inj_iff hl).mp (by rw [hgi, hgj])
    have : i = j := congrArg Fin.val hfin
    omega
  simpa using hne

/-! ### Character-level substitution lemmas -/

theorem get?_some_of_lt {α : Type} {l : List α} {i : Nat} (h : i < l.length) :
    ∃ x, l.get? i = some x := by
  cases hx : l.get? i with
  | none => exact absurd (List.get?_eq_none.mp hx) (by omega)
  | some x => exact ⟨x, rfl⟩

theorem beq_flip {α : Type} [BEq α] [LawfulBEq α] (d : α) :
    (fun y => d == y) = (fun y => y == d) := by
  funext y
  rw [Bool.eq_iff_iff]
  constructor
  · intro h
    exact beq_iff_eq.mpr (beq_iff_eq.mp h).symm
  · intro h
    exact beq_iff_eq.mpr (beq_iff_eq.mp h).symm

theorem encryptChar_pos_some {A sh : List Char} {c : Char} {i : Nat}
    (h : position (fun l => l == c) A = some i) :
    encryptChar A sh c = sh.get? i := by
  unfold encryptChar
  rw [h]
  rfl

theorem encryptChar_pos_none {A sh : List Char} {c : Char}
    (h : position (fun l => l == c) A = none) :
    encryptChar A sh c = none := by
  unfold encryptChar
  rw [h]
  rfl

theorem decryptChar_pos_some {A sh : List Char} {d : Char} {i : Nat}
    (h : position (fun l => d == l) sh = some i) :
    decryptChar A sh d = A.get? i := by
  unfold decryptChar
  rw [h]
  rfl

theorem encryptChar_eq_inv {A sh : List Char} {c d : Char}
    (h : encryptChar A sh c = some d) :
    ∃ i, position (fun l => l == c) A = some i ∧ sh.get? i = some d := by
  cases hp : position (fun l => l == c) A with
  | none =>
    rw [encryptChar_pos_none hp] at h
    cases h
  | some i =>
    rw [encryptChar_pos_some hp] at h
    exact ⟨i, rfl, h⟩

theorem encryptChar_some (A sh : List Char) (hlen : sh.length = A.length)
    {c : Char} (hc : c ∈ A) :
    ∃ i d, position (fun l => l == c) A = some i ∧ A.get? i = some c ∧
      sh.get? i = some d ∧ encryptChar A sh c = some d := by
  obtain ⟨i, hi⟩ := position_isSome_of_mem (p := fun l => l == c) hc (by simp)
  obtain ⟨x, hx, hpx⟩ := position_get? hi
  have hxc : x = c := by simpa using hpx
  subst hxc
  have hilt : i < sh.length := by rw [hlen]; exact position_lt hi
  obtain ⟨d, hd⟩ := get?_some_of_lt hilt
  exact ⟨i, d, hi, hx, hd, by rw [encryptChar_pos_some hi]; exact hd⟩

theorem decryptChar_encryptChar (A sh : List Char) (hsh : sh.Nodup)
    (hlen : sh.length = A.length) {c : Char} (hc : c ∈ A) :
    ∃ d, encryptChar A sh c = some d ∧ decryptChar A sh d = some c := by
  obtain ⟨i, d, hpos, hAi, hshi, henc⟩ := encryptChar_some A sh hlen hc
  refine ⟨d, henc, ?_⟩
  have hposd : position (fun l => d == l) sh = some i := by
    rw [beq_flip d]
    exact position_of_get?_nodup hsh hshi
  rw [decryptChar_pos_some hposd]
  exact hAi

theorem encryptChar_decryptChar (A sh : List Char) (hA : A.Nodup)
    (hlen : sh.length = A.length) {d : Char} (hd : d ∈ sh) :
    ∃ c, decryptChar A sh d = some c ∧ encryptChar A sh c = some d := by
  obtain ⟨j, hj⟩ := position_isSome_of_mem (p := fun l => d == l) hd (by simp)
  have hjlt : j < A.length := by rw [← hlen]; exact position_lt hj
  obtain ⟨c, hc⟩ := get?_some_of_lt hjlt
  refine ⟨c, by rw [decryptChar_pos_some hj]; exact hc, ?_⟩
  have hposc : position (fun l => l == c) A = some j := position_of_get?_nodup hA hc
  obtain ⟨y, hy, hpy⟩ := position_get? hj
  have hyd : d = y := by simpa using hpy
  subst hyd
  rw [encryptChar_pos_some hposc]
  exact hy

theorem decryptChar_isSome (A sh : List Char) (hlen : sh.length = A.length)
    {d : Char} (hd : d ∈ sh) :
    ∃ c, decryptChar A sh d = some c ∧ c ∈ A := by
  obtain ⟨j, hj⟩ := position_isSome_of_mem (p := fun l => d == l) hd (by simp)
  have hjlt : j < A.length := by rw [← hlen]; exact position_lt hj
  obtain ⟨c, hc⟩ := get?_some_of_lt hjlt
  exact ⟨c, by rw [decryptChar_pos_some hj]; exact hc, List.get?_mem hc⟩

/-! ### List-level encryption and decryption lemmas -/

theorem encrypt_cons (A sh : List Char) {c : Char} {cs : List Char} {e : Char}
    {rest : List Char} (h1 : encryptChar A sh c = some e)
    (h2 : CaesarEngine.encrypt A sh cs = some rest) :
    CaesarEngine.encrypt A sh (c :: cs) = some (e :: rest) := by
  simp [CaesarEngine.encrypt, h1, h2]

theorem decrypt_cons (A sh : List Char) {d : Char} {ds : List Char} {c : Char}
    {rest : List Char} (h1 : decryptChar A sh d = some c)
    (h2 : CaesarEngine.decrypt A sh ds = some rest) :
    CaesarEngine.decrypt A sh (d :: ds) = some (c :: rest) := by
  simp [CaesarEngine.decrypt, h1, h2]

theorem encrypt_decrypt_list (A sh : List Char) (hsh : sh.Nodup)
    (hlen : sh.length = A.length) (t : List Char) (ht : ∀ c ∈ t, c ∈ A) :
    ∃ ct, CaesarEngine.encrypt A sh t = some ct ∧
      CaesarEngine.decrypt A sh ct = some t := by
  induction t with
  | nil => exact ⟨[], rfl, rfl⟩
  | cons c cs ih =>
    obtain ⟨d, hd, hdc⟩ := decryptChar_encryptChar A sh hsh hlen (ht c (by simp))
    obtain ⟨ct, hct, hdct⟩ := ih fun x hx => ht x (by simp [hx])
    exact ⟨d :: ct, encrypt_cons A sh hd hct, decrypt_cons A sh hdc hdct⟩

theorem decrypt_encrypt_list (A sh : List Char) (hA : A.Nodup)
    (hlen : sh.length = A.length) (ct : List Char) (hct : ∀ d ∈ ct, d ∈ sh) :
    ∃ t, CaesarEngine.decrypt A sh ct = some t ∧
      CaesarEngine.encrypt A sh t = some ct := by
  induction ct with
  | nil => exact ⟨[], rfl, rfl⟩
  | cons d ds ih =>
    obtain ⟨c, hc, hcd⟩ := encryptChar_decryptChar A sh hA hlen (hct d (by simp))
    obtain ⟨t, htd, hte⟩ := ih fun x hx => hct x (by simp [hx])
    exact ⟨c :: t, decrypt_cons A sh hc htd, encrypt_cons A sh hcd hte⟩

theorem encrypt_cons_inv {A sh : List Char} {c : Char} {cs ct : List Char}
    (h : CaesarEngine.encrypt A sh (c :: cs) = some ct) :
    ∃ e rest, encryptChar A sh c = some e ∧
      CaesarEngine.encrypt A sh cs = some rest ∧ ct = e :: rest := by
  have hdef : CaesarEngine.encrypt A sh (c :: cs)
      = (encryptChar A sh c).bind fun e =>
          (CaesarEngine.encrypt A sh cs).bind fun rest => some (e :: rest) := rfl
  rw [hdef, Option.bind_eq_some] at h
  obtain ⟨e, he, h⟩ := h
  rw [Option.bind_eq_some] at h
  obtain ⟨rest, hrest, h⟩ := h
  exact ⟨e, rest, he, hrest, (Option.some.inj h).symm⟩

theorem decrypt_cons_inv {A sh : List Char} {d : Char} {ds u : List Char}
    (h : CaesarEngine.decrypt A sh (d :: ds) = some u) :
    ∃ c rest, decryptChar A sh d = some c ∧
      CaesarEngine.decrypt A sh ds = some rest ∧ u = c :: rest := by
  have hdef : CaesarEngine.decrypt A sh (d :: ds)
      = (decryptChar A sh d).bind fun c =>
          (CaesarEngine.decrypt A sh ds).bind fun rest => some (c :: rest) := rfl
  rw [hdef, Option.bind_eq_some] at h
  obtain ⟨c, hc, h⟩ := h
  rw [Option.bind_eq_some] at h
  obtain ⟨rest, hrest, h⟩ := h
  exact ⟨c, rest, hc, hrest, (Option.some.inj h).symm⟩

theorem encrypt_length (A sh : List Char) {t ct : List Char}
    (h : CaesarEngine.encrypt A sh t = some ct) : ct.length = t.length := by
  induction t generalizing ct with
  | nil =>
    have h0 : some ([] : List Char) = some ct := h
    cases h0
    rfl
  | cons c cs ih =>
    obtain ⟨e, rest, he, hrest, hct⟩ := encrypt_cons_inv h
    subst hct
    simp [ih hrest]

theorem decrypt_length (A sh : List Char) {ct u : List Char}
    (h : CaesarEngine.decrypt A sh ct = some u) : u.length = ct.length := by
  induction ct generalizing u with
  | nil =>
    have h0 : some ([] : List Char) = some u := h
    cases h0
    rfl
  | cons d ds ih =>
    obtain ⟨c, rest, hc, hrest, hu⟩ := decrypt_cons_inv h
    subst hu
    simp [ih hrest]

theorem encrypt_mem_shifted (A sh : List Char) {t ct : List Char}
    (h : CaesarEngine.encrypt A sh t = some ct) : ∀ d ∈ ct, d ∈ sh := by
  induction t generalizing ct with
  | nil =>
    have h0 : some ([] : List Char) = some ct := h
    cases h0
    simp
  | cons c cs ih =>
    obtain ⟨e, rest, he, hrest, hct⟩ := encrypt_cons_inv h
    subst hct
    intro d hd
    rcases List.mem_cons.mp hd with hde | hdr
    · subst hde
      obtain ⟨i, -, hi⟩ := encryptChar_eq_inv he
      exact List.get?_mem hi
    · exact ih hrest d hdr

theorem encrypt_isSome (A sh : List Char) (hlen : sh.length = A.length)
    (t : List Char) (ht : ∀ c ∈ t, c ∈ A) :
    ∃ ct, CaesarEngine.encrypt A sh t = some ct := by
  induction t with
  | nil => exact ⟨[], rfl⟩
  | cons c cs ih =>
    obtain ⟨i, d, -, -, -, he⟩ := encryptChar_some A sh hlen (ht c (by simp))
    obtain ⟨ct, hct⟩ := ih fun x hx => ht x (by simp [hx])
    exact ⟨d :: ct, encrypt_cons A sh he hct⟩

theorem decrypt_isSome_mem (A sh : List Char) (hlen : sh.length = A.length)
    (ct : List Char) (hct : ∀ d ∈ ct, d ∈ sh) :
    ∃ u, CaesarEngine.decrypt A sh ct = some u ∧ ∀ c ∈ u, c ∈ A := by
  induction ct with
  | nil => exact ⟨[], rfl, by simp⟩
  | cons d ds ih =>
    obtain ⟨c, hc, hcA⟩ := decryptChar_isSome A sh hlen (hct d (by simp))
    obtain ⟨u, hu, huA⟩ := ih fun x hx => hct x (by simp [hx])
    refine ⟨c :: u, decrypt_cons A sh hc hu, ?_⟩
    intro x hx
    rcases List.mem_cons.mp hx with hxc | hxu
    · exact hxc ▸ hcA
    · exact huA x hxu

/-! ### Engine-construction lemmas -/

theorem new_eq_some {A : List Char} {s : Nat} {sh : List Char}
    (h : CaesarEngine.new A s = some sh) :
    s ≤ A.length ∧ sh = A.drop s ++ A.take s := by
  unfold CaesarEngine.new rotate_left at h
  by_cases hs : s ≤ A.length
  · rw [if_pos hs] at h
    exact ⟨hs, (Option.some.inj h).symm⟩
  · rw [if_neg hs] at h
    cases h

theorem new_of_le {A : List Char} {s : Nat} (hs : s ≤ A.length) :
    CaesarEngine.new A s = some (A.drop s ++ A.take s) := by
  unfold CaesarEngine.new rotate_left
  rw [if_pos hs]

theorem new_perm {A : List Char} {s : Nat} {sh : List Char}
    (h : CaesarEngine.new A s = some sh) : sh.Perm A := by
  obtain ⟨hs, rfl⟩ := new_eq_some h
  calc (A.drop s ++ A.take s).Perm (A.take s ++ A.drop s) := List.perm_append_comm
    _ = A := List.take_append_drop s A

theorem new_length {A : List Char} {s : Nat} {sh : List Char}
    (h : CaesarEngine.new A s = some sh) : sh.length = A.length :=
  (new_perm h).length_eq

theorem new_nodup {A : List Char} {s : Nat} {sh : List Char}
    (h : CaesarEngine.new A s = some sh) (hA : A.Nodup) : sh.Nodup :=
  (new_perm h).symm.nodup hA

/-! ### Validation lemmas -/

theorem try_new_ok_of_mem (A t : List Char) (ht : ∀ c ∈ t, c ∈ A) :
    ClearText.try_new A t = some (Except.ok t) := by
  have hpos : position (fun c => !(A.contains c)) t = none := by
    rw [position_eq_none]
    intro c hc
    simpa using ht c hc
  unfold ClearText.try_new
  rw [hpos]

theorem try_new_ok_inv {A t u : List Char}
    (h : ClearText.try_new A t = some (Except.ok u)) :
    u = t ∧ ∀ c ∈ t, c ∈ A := by
  unfold ClearText.try_new at h
  cases hpos : position (fun c => !(A.contains c)) t with
  | some p =>
    rw [hpos] at h
    have h1 : (t.get? p).map Except.error = some (Except.ok u) := h
    cases hg : t.get? p with
    | none => rw [hg] at h1; cases h1
    | some c => rw [hg] at h1; cases Option.some.inj h1
  | none =>
    rw [hpos] at h
    refine ⟨(Except.ok.inj (Option.some.inj h)).symm, ?_⟩
    rw [position_eq_none] at hpos
    intro c hc
    have := hpos c hc
    simp at this
    simpa using this

theorem try_new_error_of_first {A t : List Char} {i : Nat} {c : Char}
    (hc : t.get? i = some c) (hnot : c ∉ A)
    (hmin : ∀ j y, j < i → t.get? j = some y → y ∈ A) :
    ClearText.try_new A t = some (Except.error c) := by
  have hpos : position (fun c => !(A.contains c)) t = some i := by
    refine position_eq_some_of hc ?_ ?_
    · simpa using hnot
    · intro j y hj hy
      simpa using hmin j y hj hy
  unfold ClearText.try_new
  rw [hpos]
  show (t.get? i).map Except.error = some (Except.error c)
  rw [hc]
  rfl

theorem encrypt_self_id (A : List Char) (t : List Char) (ht : ∀ c ∈ t, c ∈ A) :
    CaesarEngine.encrypt A A t = some t := by
  induction t with
  | nil => rfl
  | cons c cs ih =>
    obtain ⟨i, hi⟩ :=
      position_isSome_of_mem (p := fun l => l == c) (ht c (by simp)) (by simp)
    obtain ⟨x, hx, hpx⟩ := position_get? hi
    have hxc : x = c := by simpa using hpx
    have hx2 : A.get? i = some c := hxc ▸ hx
    have he : encryptChar A A c = some c := by
      rw [encryptChar_pos_some hi]
      exact hx2
    exact encrypt_cons A A he (ih fun y hy => ht y (by simp [hy]))

/-! ### Claims -/

/-- C1: round-trip law.  For every duplicate-free alphabet `A`, every
engine successfully constructed from `A` and a shift, and every plain
text validated by `ClearText.try_new` against `A`: decrypting the
encryption of `t` returns `t`, and for every cipher text `ct` produced
by `encrypt`, encrypting the decryption of `ct` returns `ct`. -/
theorem caesar_roundtrip (A : List Char) (hA : A.Nodup) (s : Nat) (sh : List Char)
    (hnew : CaesarEngine.new A s = some sh) (t : List Char)
    (ht : ClearText.try_new A t = some (Except.ok t)) :
    (∃ ct, CaesarEngine.encrypt A sh t = some ct ∧
      CaesarEngine.decrypt A sh ct = some t) ∧
    (∀ ct, CaesarEngine.encrypt A sh t = some ct →
      ∃ u, CaesarEngine.decrypt A sh ct = some u ∧
        CaesarEngine.encrypt A sh u = some ct) := by
  have hmem := (try_new_ok_inv ht).2
  have hlen := new_length hnew
  have hsh := new_nodup hnew hA
  obtain ⟨ct, hct, hdct⟩ := encrypt_decrypt_list A sh hsh hlen t hmem
  refine ⟨⟨ct, hct, hdct⟩, ?_⟩
  intro ct2 hct2
  rw [hct] at hct2
  cases Option.some.inj hct2
  exact ⟨t, hdct, hct⟩

/-- Witness for C1 at the alphabet `abc`, shift 1, plain text `ac`. -/
theorem caesar_roundtrip_witness :
    (∃ ct, CaesarEngine.encrypt ['a', 'b', 'c'] ['b', 'c', 'a'] ['a', 'c'] = some ct ∧
      CaesarEngine.decrypt ['a', 'b', 'c'] ['b', 'c', 'a'] ct = some ['a', 'c']) ∧
    (∀ ct, CaesarEngine.encrypt ['a', 'b', 'c'] ['b', 'c', 'a'] ['a', 'c'] = some ct →
      ∃ u, CaesarEngine.decrypt ['a', 'b', 'c'] ['b', 'c', 'a'] ct = some u ∧
        CaesarEngine.encrypt ['a', 'b', 'c'] ['b', 'c', 'a'] u = some ct) :=
  caesar_roundtrip ['a', 'b', 'c'] (by decide) 1 ['b', 'c', 'a'] (by rfl)
    ['a', 'c'] (by rfl)

/-- C2 counterexample: the claim says construction succeeds for every
shift, including shifts greater than the alphabet length; but a shift of
27 on the 26-letter alphabet makes `rotate_left` panic. -/
theorem new_shift_gt_length_panics :
    CaesarEngine.new AsciiLowerCaseAlphabet.letters 27 = none := by decide

/-- C2 (amended): construction succeeds exactly for shifts `s ≤ |A|`,
and then the shifted alphabet is `A` rotated left by `s % |A|`; for
`s > |A|` the `rotate_left` call panics. -/
theorem new_succeeds_iff_le (A : List Char) (s : Nat) :
    (s ≤ A.length →
      CaesarEngine.new A s =
        some (A.drop (s % A.length) ++ A.take (s % A.length))) ∧
    (A.length < s → CaesarEngine.new A s = none) := by
  constructor
  · intro hs
    rcases Nat.lt_or_ge s A.length with hlt | hge
    · rw [Nat.mod_eq_of_lt hlt]
      exact new_of_le hs
    · have hseq : s = A.length := le_antisymm hs hge
      subst hseq
      rw [Nat.mod_self]
      simp [new_of_le (le_refl A.length), List.drop_length, List.take_length]
  · intro hs
    unfold CaesarEngine.new rotate_left
    rw [if_neg (by omega)]

/-- Witness for the amended C2 at the full-length shift 26. -/
theorem new_succeeds_iff_le_witness :
    CaesarEngine.new AsciiLowerCaseAlphabet.letters 26 =
      some (AsciiLowerCaseAlphabet.letters.drop (26 % 26) ++
        AsciiLowerCaseAlphabet.letters.take (26 % 26)) :=
  (new_succeeds_iff_le AsciiLowerCaseAlphabet.letters 26).1 (by decide)

/-- C3: validation returns the unmodified input when every character is
in the alphabet, and otherwise fails with the leftmost character not in
the alphabet. -/
theorem try_new_spec (A msg : List Char) :
    ((∀ c ∈ msg, c ∈ A) → ClearText.try_new A msg = some (Except.ok msg)) ∧
    (∀ i c, msg.get? i = some c → c ∉ A →
      (∀ j y, j < i → msg.get? j = some y → y ∈ A) →
      ClearText.try_new A msg = some (Except.error c)) := by
  refine ⟨try_new_ok_of_mem A msg, ?_⟩
  intro i c hc hnot hmin
  exact try_new_error_of_first hc hnot hmin

/-- Witness for C3: the character `x` at index 0 is not in `ab`. -/
theorem try_new_spec_witness :
    ClearText.try_new ['a', 'b'] ['x'] = some (Except.error 'x') :=
  (try_new_spec ['a', 'b'] ['x']).2 0 'x' (by rfl) (by decide)
    (fun j y hj hy => absurd hj (by omega))

/-- C4: on validated plain text the position lookup inside `encrypt`
never hits its panic branch, and on cipher text produced by `encrypt`
the lookup inside `decrypt` never hits its panic branch. -/
theorem lookup_never_fails (A : List Char) (s : Nat) (sh : List Char)
    (hnew : CaesarEngine.new A s = some sh) (t : List Char)
    (ht : ClearText.try_new A t = some (Except.ok t)) :
    (∃ ct, CaesarEngine.encrypt A sh t = some ct) ∧
    (∀ ct, CaesarEngine.encrypt A sh t = some ct →
      ∃ u, CaesarEngine.decrypt A sh ct = some u) := by
  have hmem := (try_new_ok_inv ht).2
  have hlen := new_length hnew
  refine ⟨encrypt_isSome A sh hlen t hmem, ?_⟩
  intro ct hct
  obtain ⟨u, hu, -⟩ :=
    decrypt_isSome_mem A sh hlen ct (encrypt_mem_shifted A sh hct)
  exact ⟨u, hu⟩

/-- Witness for C4 at the alphabet `ab`, shift 1, plain text `ba`. -/
theorem lookup_never_fails_witness :
    (∃ ct, CaesarEngine.encrypt ['a', 'b'] ['b', 'a'] ['b', 'a'] = some ct) ∧
    (∀ ct, CaesarEngine.encrypt ['a', 'b'] ['b', 'a'] ['b', 'a'] = some ct →
      ∃ u, CaesarEngine.decrypt ['a', 'b'] ['b', 'a'] ct = some u) :=
  lookup_never_fails ['a', 'b'] 1 ['b', 'a'] (by rfl) ['b', 'a'] (by rfl)

/-- C5: shift 0 builds the engine whose shifted alphabet is `A` itself,
and encryption with that engine returns the plain text unchanged. -/
theorem shift_zero_identity (A : List Char) (t : List Char)
    (ht : ClearText.try_new A t = some (Except.ok t)) :
    CaesarEngine.new A 0 = some A ∧ CaesarEngine.encrypt A A t = some t := by
  have h0 : CaesarEngine.new A 0 = some A := by
    rw [new_of_le (Nat.zero_le A.length)]
    simp
  exact ⟨h0, encrypt_self_id A t (try_new_ok_inv ht).2⟩

/-- Witness for C5 at the 26-letter alphabet and plain text `abcd`. -/
theorem shift_zero_identity_witness :
    CaesarEngine.new AsciiLowerCaseAlphabet.letters 0 =
      some AsciiLowerCaseAlphabet.letters ∧
    CaesarEngine.encrypt AsciiLowerCaseAlphabet.letters
      AsciiLowerCaseAlphabet.letters ['a', 'b', 'c', 'd'] =
      some ['a', 'b', 'c', 'd'] :=
  shift_zero_identity AsciiLowerCaseAlphabet.letters ['a', 'b', 'c', 'd'] (by rfl)

/-- C6: a shift equal to the alphabet length wraps around: the engine
holds the original alphabet again, and its encryption is the identity
on every validated plain text. -/
theorem shift_length_identity (A : List Char) (t : List Char)
    (ht : ClearText.try_new A t = some (Except.ok t)) :
    CaesarEngine.new A A.length = some A ∧
    CaesarEngine.encrypt A A t = some t := by
  have hL : CaesarEngine.new A A.length = some A := by
    rw [new_of_le (le_refl A.length)]
    simp [List.drop_length, List.take_length]
  exact ⟨hL, encrypt_self_id A t (try_new_ok_inv ht).2⟩

/-- Witness for C6: shift 26 on the 26-letter alphabet. -/
theorem shift_length_identity_witness :
    CaesarEngine.new AsciiLowerCaseAlphabet.letters
      AsciiLowerCaseAlphabet.letters.length =
      some AsciiLowerCaseAlphabet.letters ∧
    CaesarEngine.encrypt AsciiLowerCaseAlphabet.letters
      AsciiLowerCaseAlphabet.letters ['x', 'y', 'z'] = some ['x', 'y', 'z'] :=
  shift_length_identity AsciiLowerCaseAlphabet.letters ['x', 'y', 'z'] (by rfl)

/-- C7: whenever `encrypt` returns a cipher text it has exactly as many
characters as the plain text, and whenever `decrypt` returns a plain
text it has exactly as many characters as the cipher text. -/
theorem length_preservation (A sh t ct du u : List Char) :
    (CaesarEngine.encrypt A sh t = some ct → ct.length = t.length) ∧
    (CaesarEngine.decrypt A sh du = some u → u.length = du.length) :=
  ⟨encrypt_length A sh, decrypt_length A sh⟩

/-- Witness for C7 at the alphabet `ab` with shift 1. -/
theorem length_preservation_witness :
    (['b'] : List Char).length = (['a'] : List Char).length ∧
    (['a'] : List Char).length = (['b'] : List Char).length :=
  ⟨(length_preservation ['a', 'b'] ['b', 'a'] ['a'] ['b'] [] [] ).1 (by rfl),
   (length_preservation ['a', 'b'] ['b', 'a'] [] [] ['b'] ['a']).2 (by rfl)⟩

/-- C8: engine invariant.  The stored shifted alphabet of every
successfully constructed engine is a permutation of the alphabet's
symbol sequence and has the same length.  In this embedding (as in the
source, where `encrypt` and `decrypt` borrow the engine immutably) the
engine is never modified: both operations are pure functions that
return only texts. -/
theorem engine_invariant (A : List Char) (s : Nat) (sh : List Char)
    (hnew : CaesarEngine.new A s = some sh) :
    sh.Perm A ∧ sh.length = A.length :=
  ⟨new_perm hnew, new_length hnew⟩

/-- Witness for C8 at the alphabet `abc`, shift 2. -/
theorem engine_invariant_witness :
    (['c', 'a', 'b'] : List Char).Perm ['a', 'b', 'c'] ∧
    (['c', 'a', 'b'] : List Char).length = (['a', 'b', 'c'] : List Char).length :=
  engine_invariant ['a', 'b', 'c'] 2 ['c', 'a', 'b'] (by rfl)

/-- C9: concrete alphabet contents.  The lowercase alphabet is exactly
`a`..`z` in strictly increasing (alphabetical) order, 26 unique symbols;
the `IncompleteAscii` alphabet is exactly the lowercase letters, then
the uppercase letters, then comma, space, `?`, `!`, apostrophe, `(`,
`)`, `.` — 60 unique symbols. -/
theorem alphabets_concrete :
    AsciiLowerCaseAlphabet.letters =
      ['a', 'b', 'c', 'd', 'e', 'f', 'g', 'h', 'i', 'j', 'k', 'l', 'm',
       'n', 'o', 'p', 'q', 'r', 's', 't', 'u', 'v', 'w', 'x', 'y', 'z'] ∧
    AsciiLowerCaseAlphabet.letters.length = 26 ∧
    AsciiLowerCaseAlphabet.letters.map Char.toNat = List.range' 97 26 ∧
    AsciiLowerCaseAlphabet.letters.Nodup ∧
    IncompleteAscii.letters =
      AsciiLowerCaseAlphabet.letters ++
        ['A', 'B', 'C', 'D', 'E', 'F', 'G', 'H', 'I', 'J', 'K', 'L', 'M',
         'N', 'O', 'P', 'Q', 'R', 'S', 'T', 'U', 'V', 'W', 'X', 'Y', 'Z'] ++
        [',', ' ', '?', '!', '\'', '(', ')', '.'] ∧
    IncompleteAscii.letters.length = 60 ∧
    IncompleteAscii.letters.Nodup := by
  refine ⟨by rfl, by rfl, by decide, by decide, by rfl, by rfl, by decide⟩

/-- C10: encryption of any message maps every output character into the
shifted alphabet, and decryption of any cipher text lying in the
shifted alphabet succeeds and maps every output character back into the
original alphabet. -/
theorem text_membership_invariant (A : List Char) (s : Nat) (sh : List Char)
    (hnew : CaesarEngine.new A s = some sh) :
    (∀ t ct, CaesarEngine.encrypt A sh t = some ct → ∀ d ∈ ct, d ∈ sh) ∧
    (∀ ct, (∀ d ∈ ct, d ∈ sh) →
      ∃ u, CaesarEngine.decrypt A sh ct = some u ∧ ∀ c ∈ u, c ∈ A) := by
  have hlen := new_length hnew
  exact ⟨fun t ct h => encrypt_mem_shifted A sh h,
    fun ct hct => decrypt_isSome_mem A sh hlen ct hct⟩

/-- Witness for C10 at the alphabet `ab`, shift 1, cipher text `b`. -/
theorem text_membership_invariant_witness :
    (∀ t ct, CaesarEngine.encrypt ['a', 'b'] ['b', 'a'] t = some ct →
      ∀ d ∈ ct, d ∈ (['b', 'a'] : List Char)) ∧
    (∀ ct, (∀ d ∈ ct, d ∈ (['b', 'a'] : List Char)) →
      ∃ u, CaesarEngine.decrypt ['a', 'b'] ['b', 'a'] ct = some u ∧
        ∀ c ∈ u, c ∈ (['a', 'b'] : List Char)) :=
  text_membership_invariant ['a', 'b'] 1 ['b', 'a'] (by rfl)

example :
    (CaesarEngine.new AsciiLowerCaseAlphabet.letters 3 >>= fun sh =>
      CaesarEngine.encrypt AsciiLowerCaseAlphabet.letters sh ['a', 'b', 'c', 'd'])
    = some ['d', 'e', 'f', 'g'] := by rfl

example :
    ClearText.try_new AsciiLowerCaseAlphabet.letters "hello world".data
    = some (Except.error ' ') := by rfl
